import Mathlib

/-!
Verification of `preprocess.py` (LinkedIn post preprocessing pipeline).

The development shallowly embeds the Python source:

* JSON values (`Json`) model the values produced by Python's `json.loads`;
  Python dicts are modelled as association lists in which the *last* binding
  for a key wins (`lookupLast`), which matches the observable lookup
  semantics of Python's dict construction and `{**a, **b}` update.
* `json_loads` models the strict-mode parser `json.loads` (the JSON grammar:
  objects, arrays, strings with the standard single-character escapes,
  numbers without redundant leading zeros, `true`/`false`/`null`, with the
  four JSON whitespace characters allowed between tokens and the whole
  input required to be a single value).  `\uXXXX` escapes and the
  non-standard `NaN`/`Infinity` literals are not modelled; no input used in
  this development contains them.
* `extract_json`, `extract_metadata`, `get_unified_tags` and the phases of
  `process_posts` are transcribed from `src/preprocess.py`; the external
  model call is abstracted as a response string parameter (`none` standing
  for an invocation that raised one of the exception types caught by the
  caller).
-/

/-- JSON values as produced by `json.loads`.  Numbers keep their source
lexeme, since no code in the repository computes with them. -/
inductive Json where
  | null : Json
  | bool (b : Bool) : Json
  | num (lexeme : String) : Json
  | str (s : String) : Json
  | arr (elems : List Json) : Json
  | obj (members : List (String × Json)) : Json

mutual

/-- Boolean equality on JSON values (Python `==` on parsed values, except
that numbers are compared by lexeme). -/
def Json.beq : Json → Json → Bool
  | .null, .null => true
  | .bool a, .bool b => a == b
  | .num a, .num b => a == b
  | .str a, .str b => a == b
  | .arr xs, .arr ys => Json.beqList xs ys
  | .obj xs, .obj ys => Json.beqMembers xs ys
  | _, _ => false

/-- Boolean equality on lists of JSON values. -/
def Json.beqList : List Json → List Json → Bool
  | [], [] => true
  | x :: xs, y :: ys => Json.beq x y && Json.beqList xs ys
  | _, _ => false

/-- Boolean equality on JSON object member lists. -/
def Json.beqMembers : List (String × Json) → List (String × Json) → Bool
  | [], [] => true
  | (k1, v1) :: xs, (k2, v2) :: ys =>
    k1 == k2 && Json.beq v1 v2 && Json.beqMembers xs ys
  | _, _ => false

end

mutual

/-- `Json.beq` is sound for propositional equality. -/
def Json.eq_of_beq : ∀ (a b : Json), Json.beq a b = true → a = b
  | .null, .null, _ => rfl
  | .bool a, .bool b, h => by
    simp only [Json.beq, beq_iff_eq] at h; rw [h]
  | .num a, .num b, h => by
    simp only [Json.beq, beq_iff_eq] at h; rw [h]
  | .str a, .str b, h => by
    simp only [Json.beq, beq_iff_eq] at h; rw [h]
  | .arr xs, .arr ys, h => by
    rw [Json.eqList_of_beqList xs ys (by simpa [Json.beq] using h)]
  | .obj xs, .obj ys, h => by
    rw [Json.eqMembers_of_beqMembers xs ys (by simpa [Json.beq] using h)]
  | .null, .bool _, h => by simp [Json.beq] at h
  | .null, .num _, h => by simp [Json.beq] at h
  | .null, .str _, h => by simp [Json.beq] at h
  | .null, .arr _, h => by simp [Json.beq] at h
  | .null, .obj _, h => by simp [Json.beq] at h
  | .bool _, .null, h => by simp [Json.beq] at h
  | .bool _, .num _, h => by simp [Json.beq] at h
  | .bool _, .str _, h => by simp [Json.beq] at h
  | .bool _, .arr _, h => by simp [Json.beq] at h
  | .bool _, .obj _, h => by simp [Json.beq] at h
  | .num _, .null, h => by simp [Json.beq] at h
  | .num _, .bool _, h => by simp [Json.beq] at h
  | .num _, .str _, h => by simp [Json.beq] at h
  | .num _, .arr _, h => by simp [Json.beq] at h
  | .num _, .obj _, h => by simp [Json.beq] at h
  | .str _, .null, h => by simp [Json.beq] at h
  | .str _, .bool _, h => by simp [Json.beq] at h
  | .str _, .num _, h => by simp [Json.beq] at h
  | .str _, .arr _, h => by simp [Json.beq] at h
  | .str _, .obj _, h => by simp [Json.beq] at h
  | .arr _, .null, h => by simp [Json.beq] at h
  | .arr _, .bool _, h => by simp [Json.beq] at h
  | .arr _, .num _, h => by simp [Json.beq] at h
  | .arr _, .str _, h => by simp [Json.beq] at h
  | .arr _, .obj _, h => by simp [Json.beq] at h
  | .obj _, .null, h => by simp [Json.beq] at h
  | .obj _, .bool _, h => by simp [Json.beq] at h
  | .obj _, .num _, h => by simp [Json.beq] at h
  | .obj _, .str _, h => by simp [Json.beq] at h
  | .obj _, .arr _, h => by simp [Json.beq] at h

/-- `Json.beqList` is sound for propositional equality. -/
def Json.eqList_of_beqList : ∀ (xs ys : List Json), Json.beqList xs ys = true → xs = ys
  | [], [], _ => rfl
  | x :: xs, y :: ys, h => by
    simp only [Json.beqList, Bool.and_eq_true] at h
    rw [Json.eq_of_beq x y h.1, Json.eqList_of_beqList xs ys h.2]
  | [], _ :: _, h => by simp [Json.beqList] at h
  | _ :: _, [], h => by simp [Json.beqList] at h

/-- `Json.beqMembers` is sound for propositional equality. -/
def Json.eqMembers_of_beqMembers :
    ∀ (xs ys : List (String × Json)), Json.beqMembers xs ys = true → xs = ys
  | [], [], _ => rfl
  | (k1, v1) :: xs, (k2, v2) :: ys, h => by
    simp only [Json.beqMembers, Bool.and_eq_true, beq_iff_eq] at h
    rw [h.1.1, Json.eq_of_beq v1 v2 h.1.2, Json.eqMembers_of_beqMembers xs ys h.2]
  | [], _ :: _, h => by simp [Json.beqMembers] at h
  | _ :: _, [], h => by simp [Json.beqMembers] at h

end

mutual

/-- `Json.beq` is reflexive. -/
def Json.beq_refl : ∀ a : Json, Json.beq a a = true
  | .null => rfl
  | .bool a => by simp [Json.beq]
  | .num a => by simp [Json.beq]
  | .str a => by simp [Json.beq]
  | .arr xs => by simpa [Json.beq] using Json.beqList_refl xs
  | .obj xs => by simpa [Json.beq] using Json.beqMembers_refl xs

/-- `Json.beqList` is reflexive. -/
def Json.beqList_refl : ∀ xs : List Json, Json.beqList xs xs = true
  | [] => rfl
  | x :: xs => by
    simp only [Json.beqList, Bool.and_eq_true]
    exact ⟨Json.beq_refl x, Json.beqList_refl xs⟩

/-- `Json.beqMembers` is reflexive. -/
def Json.beqMembers_refl : ∀ xs : List (String × Json), Json.beqMembers xs xs = true
  | [] => rfl
  | (k, v) :: xs => by
    simp only [Json.beqMembers, Bool.and_eq_true, beq_iff_eq]
    exact ⟨⟨by trivial, Json.beq_refl v⟩, Json.beqMembers_refl xs⟩

end

instance : DecidableEq Json := fun a b =>
  if h : Json.beq a b = true then isTrue (Json.eq_of_beq a b h)
  else isFalse fun he => h (he ▸ Json.beq_refl a)

/-- `isinstance(v, dict)` on a parsed JSON value. -/
def Json.isObj : Json → Bool
  | .obj _ => true
  | _ => false

/-- `isinstance(v, list)` on a parsed JSON value. -/
def Json.isArr : Json → Bool
  | .arr _ => true
  | _ => false

/-- The members of a JSON object (`[]` for non-objects). -/
def Json.objMembers : Json → List (String × Json)
  | .obj kvs => kvs
  | _ => []

/-- The keys of a JSON object (`[]` for non-objects). -/
def jsonKeys (j : Json) : List String :=
  j.objMembers.map Prod.fst

/-- The four whitespace characters accepted between JSON tokens. -/
def isJsonWs (c : Char) : Bool :=
  c == ' ' || c == '\t' || c == '\n' || c == '\r'

/-- Skip JSON whitespace. -/
def skipWs : List Char → List Char
  | [] => []
  | c :: rest => if isJsonWs c then skipWs rest else c :: rest

/-- Body of a JSON string after the opening quote: returns the decoded
content and the input remaining after the closing quote.  Control
characters below 0x20 are rejected (strict mode), `\uXXXX` is not
modelled. -/
def parseStringAux (acc : List Char) : List Char → Option (List Char × List Char)
  | [] => none
  | '"' :: rest => some (acc.reverse, rest)
  | '\\' :: esc :: rest =>
    if esc = '"' then parseStringAux ('"' :: acc) rest
    else if esc = '\\' then parseStringAux ('\\' :: acc) rest
    else if esc = '/' then parseStringAux ('/' :: acc) rest
    else if esc = 'b' then parseStringAux ('\x08' :: acc) rest
    else if esc = 'f' then parseStringAux ('\x0c' :: acc) rest
    else if esc = 'n' then parseStringAux ('\n' :: acc) rest
    else if esc = 'r' then parseStringAux ('\r' :: acc) rest
    else if esc = 't' then parseStringAux ('\t' :: acc) rest
    else none
  | c :: rest =>
    if c.toNat < 0x20 then none else parseStringAux (c :: acc) rest

/-- Split a leading run of decimal digits from the input. -/
def splitDigits : List Char → List Char × List Char
  | [] => ([], [])
  | c :: rest =>
    if c.isDigit then
      let p := splitDigits rest
      (c :: p.1, p.2)
    else ([], c :: rest)

/-- Integer part of a JSON number: `0`, or a nonzero digit followed by
digits (leading zeros are not allowed by the grammar). -/
def parseIntPart : List Char → Option (List Char × List Char)
  | [] => none
  | c :: rest =>
    if c = '0' then some (['0'], rest)
    else if c.isDigit then
      let p := splitDigits rest
      some (c :: p.1, p.2)
    else none

/-- Optional fraction part `.digits`; consumes nothing when absent or
malformed (the stray characters are then rejected by the caller's
delimiter check, as in Python's scanner). -/
def parseFrac : List Char → List Char × List Char
  | '.' :: rest =>
    match splitDigits rest with
    | ([], _) => ([], '.' :: rest)
    | (ds, rest') => ('.' :: ds, rest')
  | s => ([], s)

/-- Optional exponent part `[eE][+-]?digits`; consumes nothing when absent
or malformed. -/
def parseExp (s : List Char) : List Char × List Char :=
  match s with
  | e :: rest =>
    if e = 'e' ∨ e = 'E' then
      match rest with
      | sign :: rest' =>
        if sign = '+' ∨ sign = '-' then
          match splitDigits rest' with
          | ([], _) => ([], s)
          | (ds, rest'') => (e :: sign :: ds, rest'')
        else
          match splitDigits rest with
          | ([], _) => ([], s)
          | (ds, rest') => (e :: ds, rest')
      | [] => ([], s)
    else ([], s)
  | [] => ([], s)

/-- Lex a JSON number, returning its lexeme and the rest of the input. -/
def parseNumber (s : List Char) : Option (List Char × List Char) :=
  match s with
  | '-' :: rest =>
    match parseIntPart rest with
    | none => none
    | some (ip, r1) =>
      let f := parseFrac r1
      let e := parseExp f.2
      some ('-' :: (ip ++ f.1 ++ e.1), e.2)
  | _ =>
    match parseIntPart s with
    | none => none
    | some (ip, r1) =>
      let f := parseFrac r1
      let e := parseExp f.2
      some (ip ++ f.1 ++ e.1, e.2)

mutual

/-- Parse one JSON value (fuelled recursion; the wrapper `json_loads`
supplies ample fuel). -/
def parseValue : Nat → List Char → Option (Json × List Char)
  | 0, _ => none
  | fuel + 1, s =>
    match skipWs s with
    | [] => none
    | '{' :: rest => (parseObjRest fuel rest).map fun p => (Json.obj p.1, p.2)
    | '[' :: rest => (parseArrRest fuel rest).map fun p => (Json.arr p.1, p.2)
    | '"' :: rest => (parseStringAux [] rest).map fun p => (Json.str (String.mk p.1), p.2)
    | 't' :: 'r' :: 'u' :: 'e' :: rest => some (Json.bool true, rest)
    | 'f' :: 'a' :: 'l' :: 's' :: 'e' :: rest => some (Json.bool false, rest)
    | 'n' :: 'u' :: 'l' :: 'l' :: rest => some (Json.null, rest)
    | s' => (parseNumber s').map fun p => (Json.num (String.mk p.1), p.2)

/-- Parse the inside of an object, just after `{`. -/
def parseObjRest : Nat → List Char → Option (List (String × Json) × List Char)
  | 0, _ => none
  | fuel + 1, s =>
    match skipWs s with
    | '}' :: rest => some ([], rest)
    | s' => parseMembers fuel s'

/-- Parse one or more `"key": value` members followed by `}`. -/
def parseMembers : Nat → List Char → Option (List (String × Json) × List Char)
  | 0, _ => none
  | fuel + 1, s =>
    match skipWs s with
    | '"' :: rest =>
      match parseStringAux [] rest with
      | none => none
      | some (key, afterKey) =>
        match skipWs afterKey with
        | ':' :: afterColon =>
          match parseValue fuel afterColon with
          | none => none
          | some (v, afterVal) =>
            match skipWs afterVal with
            | ',' :: afterComma =>
              (parseMembers fuel afterComma).map fun p =>
                ((String.mk key, v) :: p.1, p.2)
            | '}' :: rest' => some ([(String.mk key, v)], rest')
            | _ => none
        | _ => none
    | _ => none

/-- Parse the inside of an array, just after `[`. -/
def parseArrRest : Nat → List Char → Option (List Json × List Char)
  | 0, _ => none
  | fuel + 1, s =>
    match skipWs s with
    | ']' :: rest => some ([], rest)
    | s' => parseElements fuel s'

/-- Parse one or more array elements followed by `]`. -/
def parseElements : Nat → List Char → Option (List Json × List Char)
  | 0, _ => none
  | fuel + 1, s =>
    match parseValue fuel s with
    | none => none
    | some (v, afterVal) =>
      match skipWs afterVal with
      | ',' :: afterComma =>
        (parseElements fuel afterComma).map fun p => (v :: p.1, p.2)
      | ']' :: rest => some ([v], rest)
      | _ => none

end

/-- `json.loads`: parse a complete JSON document, allowing surrounding
whitespace and rejecting trailing data (`none` models a raised
`json.JSONDecodeError`). -/
def json_loads (s : List Char) : Option Json :=
  match parseValue (3 * s.length + 3) s with
  | some (v, rest) => if skipWs rest = [] then some v else none
  | none => none

example : json_loads ("\x7b\"a\": 1\x7d".toList) = some (Json.obj [("a", Json.num "1")]) := by decide
example : json_loads (" [1, true, \"x\"] ".toList)
    = some (Json.arr [Json.num "1", Json.bool true, Json.str "x"]) := by decide
example : json_loads ("\x7b\"a\": 1\x7d oops".toList) = none := by decide
example : json_loads ("\x7b\"a\": \x7b\"b\": []\x7d\x7d".toList)
    = some (Json.obj [("a", Json.obj [("b", Json.arr [])])]) := by decide
example : json_loads ("01".toList) = none := by decide
example : json_loads ("-2.5e3".toList) = some (Json.num "-2.5e3") := by decide
example : json_loads ("".toList) = none := by decide
example : json_loads ("\x7b".toList) = none := by decide

/-- Index of the first occurrence of a character. -/
def idxOfFirst (c : Char) : List Char → Option Nat
  | [] => none
  | a :: rest => if a = c then some 0 else (idxOfFirst c rest).map (· + 1)

/-- Index of the last occurrence of a character. -/
def idxOfLast (c : Char) : List Char → Option Nat
  | [] => none
  | a :: rest =>
    match idxOfLast c rest with
    | some j => some (j + 1)
    | none => if a = c then some 0 else none

/-- The candidate substring found by `re.search(r"\x7b.*\x7d", text, re.DOTALL)`:
with `.` matching newlines and `.*` greedy, the match (when it exists) runs
from the first `{` that has some `}` after it — equivalently, the first `{`,
provided the last `}` lies beyond it — to the last `}` of the string. -/
def candidate (s : List Char) : Option (List Char) :=
  match idxOfFirst '{' s, idxOfLast '}' s with
  | some i, some j => if i < j then some ((s.drop i).take (j - i + 1)) else none
  | _, _ => none

/-- `extract_json` (src/preprocess.py:14-23): extract the regex candidate and
parse it with `json.loads`; a `JSONDecodeError` is caught, printed and
replaced by `{}`; `{}` is likewise returned when the regex does not match. -/
def extract_json (s : List Char) : Json :=
  match candidate s with
  | none => Json.obj []
  | some c =>
    match json_loads c with
    | some v => v
    | none => Json.obj []

example : extract_json ("Sure! \x7b\"a\": 1\x7d bye".toList) = Json.obj [("a", Json.num "1")] := by decide
example : extract_json ("no braces".toList) = Json.obj [] := by decide
example : extract_json ("\x7b\"a\": 1\x7d and \x7b\"b\": 2\x7d".toList) = Json.obj [] := by decide

/-- Does `json.loads` accept this whole string as a JSON object? -/
def isJsonObjStr (s : List Char) : Bool :=
  match json_loads s with
  | some (Json.obj _) => true
  | _ => false

/-- Does some contiguous substring of `s` parse as a JSON object?  (All
substrings of `s` are of the form `(s.drop i).take k` with `i, k ≤ s.length`.) -/
def containsJsonObjStr (s : List Char) : Bool :=
  (List.range (s.length + 1)).any fun i =>
    (List.range (s.length + 1)).any fun k => isJsonObjStr ((s.drop i).take k)

/-- Python whitespace stripped by `str.strip()` (the ASCII fragment;
the inputs of this development contain no further Unicode whitespace). -/
def isPyWs (c : Char) : Bool :=
  c == ' ' || c == '\t' || c == '\n' || c == '\r' || c == '\x0b' || c == '\x0c'

/-- `str.strip()`: drop leading and trailing whitespace. -/
def pyStrip (s : List Char) : List Char :=
  ((s.dropWhile isPyWs).reverse.dropWhile isPyWs).reverse

/-- `clean_text` (src/preprocess.py:9-11):
`text.encode("utf-8", "ignore").decode("utf-8")` drops exactly the code
points that UTF-8 cannot encode, i.e. lone surrogates (which a Python `str`
can contain but a Lean `Char`, being a unicode scalar value, cannot). -/
def clean_text (s : List Char) : List Char :=
  s.filter fun c => decide (c.toNat < 0xD800 ∨ 0xDFFF < c.toNat)

/-- Python dicts are modelled as association lists in which the *last*
binding for a key wins; `lookupLast` is dict lookup under that convention
(`json.loads` keeps the last of duplicate keys, and `{**a, **b}` lets `b`
override `a`). -/
def lookupLast (d : List (String × Json)) (k : String) : Option Json :=
  match d with
  | [] => none
  | (k', v) :: rest =>
    match lookupLast rest k with
    | some v' => some v'
    | none => if k' = k then some v else none

/-- A Python dict as it appears in this pipeline (a post record or a tag
mapping), under the `lookupLast` convention. -/
abbrev PyDict := List (String × Json)

/-- Dict assignment `d[k] = v`, modelled at lookup level (the new binding
wins). -/
def setKey (d : PyDict) (k : String) (v : Json) : PyDict :=
  d ++ [(k, v)]

/-- The merge `\x7b**a, **b\x7d`: every key of `b` wins over a same-named key
of `a`; keys only in `a` keep their value (modelled at lookup level). -/
def mergeDicts (a b : PyDict) : PyDict :=
  a ++ b

/-- `d.get(k, default)`. -/
def dictGetD (d : PyDict) (k : String) (default : Json) : Json :=
  (lookupLast d k).getD default

/-- `post.get('text', '')`, as the character list of the text.  (A non-string
`text` value would make the subsequent `clean_text` raise in Python; no claim
exercises that case.) -/
def textOf (post : PyDict) : List Char :=
  match lookupLast post "text" with
  | some (Json.str s) => s.toList
  | _ => []

/-- `post['tags']` as a list of JSON values.  (In the source this key access
is only performed on enriched records, which always carry a `tags` list;
absent or non-list values are modelled as `[]`.) -/
def postTags (post : PyDict) : List Json :=
  match lookupLast post "tags" with
  | some (Json.arr l) => l
  | _ => []

/-- The deduplicated union of all tags over the collection
(`unique_tags.update(post['tags'])` per record). -/
def observedTags (posts : List PyDict) : List Json :=
  ((posts.map postTags).flatten).dedup

/-- The fixed fallback metadata value
`{"line_count": 0, "language": "Unknown", "tags": []}`. -/
def fallbackMetadata : Json :=
  Json.obj [("line_count", Json.num "0"), ("language", Json.str "Unknown"),
            ("tags", Json.arr [])]

/-- `extract_metadata` (src/preprocess.py:63-90).  The model call is
abstracted: `response = some content` stands for a completed invocation
whose reply text is `content`, and `response = none` for an invocation that
raised one of the caught exception types (`OutputParserException`,
`json.JSONDecodeError`), which lands in the `except` branch.  On a reply,
the code runs `extract_json(response.content.strip())` and returns the
result if it `isinstance(res, dict)`, else the fallback. -/
def extract_metadata (post : List Char) (response : Option (List Char)) : Json :=
  let _cleaned := clean_text post
  match response with
  | none => fallbackMetadata
  | some content =>
    let res := extract_json (pyStrip content)
    if res.isObj then res else fallbackMetadata

/-- `get_unified_tags` (src/preprocess.py:27-57), with the model reply
passed in as `response` (the prompt built from the deduplicated tag list
only shapes the request).  The body runs `extract_json(response.content)`
and returns its result; the `except OutputParserException` clause that would
re-raise `OutputParserException("Context too big. Unable to parse jobs.")`
is dead code, because `extract_json` catches `json.JSONDecodeError` itself
and never raises `OutputParserException` — so the function always returns
normally, which the `Except.ok` records. -/
def get_unified_tags (posts : List PyDict) (response : List Char) :
    Except String Json :=
  let _uniqueTags := observedTags posts
  Except.ok (extract_json response)

/-- `unified_tags.get(tag, tag)` applied to one tag: dict keys are strings,
so a non-string tag can never equal a key and falls through unchanged. -/
def mapTag (unified : PyDict) (t : Json) : Json :=
  match t with
  | Json.str s => dictGetD unified s t
  | _ => t

/-- `list({unified_tags.get(tag, tag) for tag in current_tags})`
(src/preprocess.py:113-115): map every tag through the mapping with
identity fallback and deduplicate.  Python's set iteration order is
unspecified; deduplication order is fixed here only to keep the function
executable — all claims about it are order-insensitive. -/
def rewriteTags (unified : PyDict) (tags : List Json) : List Json :=
  (tags.map (mapTag unified)).dedup

/-- The per-record enrichment of `process_posts` (src/preprocess.py:98-109):
clean the text, extract metadata, merge it over the record
(`{**post, **metadata}` — the `isinstance` guard is kept from the source),
then ensure a `tags` key with `post_with_metadata.get('tags', [])`. -/
def enrichPost (post : PyDict) (response : Option (List Char)) : PyDict :=
  let cleaned := clean_text (textOf post)
  let post' := setKey post "text" (Json.str (String.mk cleaned))
  let metadata := extract_metadata cleaned response
  let pwm := if metadata.isObj then mergeDicts post' metadata.objMembers else post'
  setKey pwm "tags" (dictGetD pwm "tags" (Json.arr []))

/-- The unification-application step of `process_posts`
(src/preprocess.py:112-115) for one record. -/
def applyUnification (unified : PyDict) (post : PyDict) : PyDict :=
  setKey post "tags" (Json.arr (rewriteTags unified (postTags post)))

/-- `process_posts` (src/preprocess.py:93-120) on an already-loaded record
list, with the per-record model replies and the unification reply passed in
(file I/O and the network are outside the model). -/
def process_posts (posts : List PyDict) (responses : List (Option (List Char)))
    (unifyResponse : List Char) : Except String (List PyDict) :=
  let enriched := (posts.zip responses).map fun pr => enrichPost pr.1 pr.2
  match get_unified_tags enriched unifyResponse with
  | Except.error e => Except.error e
  | Except.ok unified => Except.ok (enriched.map (applyUnification unified.objMembers))

/-! ### Helper lemmas -/

theorem idxOfFirst_drop (c : Char) (s : List Char) (i : Nat)
    (h : idxOfFirst c s = some i) : ∃ t, s.drop i = c :: t := by
  induction s generalizing i with
  | nil => simp [idxOfFirst] at h
  | cons a rest ih =>
    by_cases hac : a = c
    · simp only [idxOfFirst, if_pos hac] at h
      cases h
      exact ⟨rest, by simp [hac]⟩
    · simp only [idxOfFirst, if_neg hac] at h
      rcases Option.map_eq_some'.mp h with ⟨i', hi', hEq⟩
      rcases ih i' hi' with ⟨t, ht⟩
      exact ⟨t, by rw [← hEq]; simpa using ht⟩

theorem idxOfLast_lt_length (c : Char) (s : List Char) (j : Nat)
    (h : idxOfLast c s = some j) : j < s.length := by
  induction s generalizing j with
  | nil => simp [idxOfLast] at h
  | cons a rest ih =>
    simp only [idxOfLast] at h
    cases hr : idxOfLast c rest with
    | some j' =>
      rw [hr] at h
      cases h
      simpa using ih j' hr
    | none =>
      rw [hr] at h
      by_cases hac : a = c
      · rw [if_pos hac] at h; cases h; simp
      · rw [if_neg hac] at h; cases h

theorem candidate_head (s cnd : List Char) (h : candidate s = some cnd) :
    ∃ t, cnd = '{' :: t := by
  unfold candidate at h
  cases hi : idxOfFirst '{' s with
  | none => rw [hi] at h; cases h
  | some i =>
    cases hj : idxOfLast '}' s with
    | none => rw [hi, hj] at h; cases h
    | some j =>
      rw [hi, hj] at h
      dsimp only at h
      by_cases hij : i < j
      · rw [if_pos hij] at h
        cases h
        rcases idxOfFirst_drop '{' s i hi with ⟨t, ht⟩
        refine ⟨t.take (j - i), ?_⟩
        rw [ht]
        have he : j - i + 1 = (j - i) + 1 := rfl
        rw [he, List.take_succ_cons]
      · rw [if_neg hij] at h; cases h

theorem candidate_is_substring (s cnd : List Char) (h : candidate s = some cnd) :
    ∃ i k, i ≤ s.length ∧ k ≤ s.length ∧ cnd = (s.drop i).take k := by
  unfold candidate at h
  cases hi : idxOfFirst '{' s with
  | none => rw [hi] at h; cases h
  | some i =>
    cases hj : idxOfLast '}' s with
    | none => rw [hi, hj] at h; cases h
    | some j =>
      rw [hi, hj] at h
      dsimp only at h
      by_cases hij : i < j
      · rw [if_pos hij] at h
        cases h
        have hjlen : j < s.length := idxOfLast_lt_length '}' s j hj
        exact ⟨i, j - i + 1, by omega, by omega, rfl⟩
      · rw [if_neg hij] at h; cases h

theorem skipWs_brace (t : List Char) : skipWs ('{' :: t) = '{' :: t := by
  simp [skipWs, isJsonWs]

theorem parseValue_obj_of_brace (fuel : Nat) (s rest : List Char) (v : Json)
    (r : List Char) (hs : skipWs s = '{' :: rest) (hp : parseValue fuel s = some (v, r)) :
    ∃ kvs, v = Json.obj kvs := by
  cases fuel with
  | zero => simp [parseValue] at hp
  | succ fuel =>
    rw [parseValue, hs] at hp
    rcases Option.map_eq_some'.mp hp with ⟨p, _, hp2⟩
    injection hp2 with h1 _
    exact ⟨p.1, h1.symm⟩

theorem json_loads_obj_of_brace (t : List Char) (v : Json)
    (h : json_loads ('{' :: t) = some v) : ∃ kvs, v = Json.obj kvs := by
  unfold json_loads at h
  cases hp : parseValue (3 * ('{' :: t).length + 3) ('{' :: t) with
  | none => rw [hp] at h; cases h
  | some p =>
    obtain ⟨v', r⟩ := p
    rw [hp] at h
    dsimp only at h
    by_cases hrest : skipWs r = []
    · rw [if_pos hrest] at h
      cases h
      exact parseValue_obj_of_brace _ _ t _ r (skipWs_brace t) hp
    · rw [if_neg hrest] at h; cases h

theorem extract_json_of_candidate_none (s : List Char) (h : candidate s = none) :
    extract_json s = Json.obj [] := by
  unfold extract_json
  rw [h]

theorem extract_json_of_candidate_some (s cnd : List Char) (h : candidate s = some cnd) :
    extract_json s = (json_loads cnd).getD (Json.obj []) := by
  unfold extract_json
  rw [h]
  dsimp only
  cases json_loads cnd <;> rfl

theorem extract_json_isObj (s : List Char) : (extract_json s).isObj = true := by
  cases hc : candidate s with
  | none => rw [extract_json_of_candidate_none s hc]; rfl
  | some cnd =>
    rw [extract_json_of_candidate_some s cnd hc]
    cases hl : json_loads cnd with
    | none => rfl
    | some v =>
      rcases candidate_head s cnd hc with ⟨t, ht⟩
      rcases json_loads_obj_of_brace t v (ht ▸ hl) with ⟨kvs, hv⟩
      rw [hv]
      rfl

theorem lookupLast_append (a b : PyDict) (k : String) :
    lookupLast (a ++ b) k =
      match lookupLast b k with
      | some v => some v
      | none => lookupLast a k := by
  induction a with
  | nil =>
    simp only [List.nil_append]
    cases lookupLast b k <;> rfl
  | cons kv rest ih =>
    obtain ⟨k', v⟩ := kv
    have hc : ((k', v) :: rest) ++ b = (k', v) :: (rest ++ b) := rfl
    rw [hc]
    show (match lookupLast (rest ++ b) k with
          | some v' => some v'
          | none => if k' = k then some v else none) = _
    rw [ih]
    cases hb : lookupLast b k with
    | some w => rfl
    | none =>
      show _ = (match lookupLast rest k with
                | some v' => some v'
                | none => if k' = k then some v else none)
      cases lookupLast rest k <;> rfl

theorem lookupLast_setKey_self (d : PyDict) (k : String) (v : Json) :
    lookupLast (setKey d k v) k = some v := by
  unfold setKey
  rw [lookupLast_append]
  simp [lookupLast]

theorem lookupLast_setKey_ne (d : PyDict) (k k' : String) (v : Json) (h : k' ≠ k) :
    lookupLast (setKey d k v) k' = lookupLast d k' := by
  unfold setKey
  rw [lookupLast_append]
  have hne : k ≠ k' := fun he => h he.symm
  simp only [lookupLast, if_neg hne]

theorem idxOfFirst_append_absent (c : Char) (xs ys : List Char)
    (h : ∀ a ∈ xs, a ≠ c) :
    idxOfFirst c (xs ++ ys) = (idxOfFirst c ys).map (· + xs.length) := by
  induction xs with
  | nil =>
    simp only [List.nil_append, List.length_nil]
    cases idxOfFirst c ys <;> simp
  | cons a rest ih =>
    have hac : a ≠ c := h a (List.mem_cons_self a rest)
    have hrest : ∀ b ∈ rest, b ≠ c := fun b hb => h b (List.mem_cons_of_mem a hb)
    have hc : (a :: rest) ++ ys = a :: (rest ++ ys) := rfl
    rw [hc]
    simp only [idxOfFirst, if_neg hac, ih hrest, List.length_cons]
    cases idxOfFirst c ys <;> simp +arith

theorem idxOfLast_append (c : Char) (xs ys : List Char) :
    idxOfLast c (xs ++ ys) =
      match idxOfLast c ys with
      | some j => some (xs.length + j)
      | none => idxOfLast c xs := by
  induction xs with
  | nil =>
    simp only [List.nil_append, List.length_nil]
    cases idxOfLast c ys with
    | some j => simp
    | none => rfl
  | cons a rest ih =>
    have hc : (a :: rest) ++ ys = a :: (rest ++ ys) := rfl
    rw [hc]
    show (match idxOfLast c (rest ++ ys) with
          | some j => some (j + 1)
          | none => if a = c then some 0 else none) = _
    rw [ih]
    cases hy : idxOfLast c ys with
    | some j => simp +arith [List.length_cons]
    | none =>
      conv_rhs => rw [idxOfLast]

theorem idxOfLast_absent (c : Char) (xs : List Char) (h : ∀ a ∈ xs, a ≠ c) :
    idxOfLast c xs = none := by
  induction xs with
  | nil => rfl
  | cons a rest ih =>
    have hac : a ≠ c := h a (List.mem_cons_self a rest)
    have hrest : ∀ b ∈ rest, b ≠ c := fun b hb => h b (List.mem_cons_of_mem a hb)
    simp only [idxOfLast, ih hrest, if_neg hac]

theorem idxOfLast_snoc_self (c : Char) (xs : List Char) :
    idxOfLast c (xs ++ [c]) = some xs.length := by
  rw [idxOfLast_append]
  simp [idxOfLast]

theorem lookupLast_mem (d : PyDict) (k : String) (v : Json)
    (h : lookupLast d k = some v) : (k, v) ∈ d := by
  induction d with
  | nil => simp [lookupLast] at h
  | cons kv rest ih =>
    simp only [lookupLast] at h
    cases hr : lookupLast rest k with
    | some v' =>
      rw [hr] at h
      cases h
      exact List.mem_cons_of_mem _ (ih hr)
    | none =>
      rw [hr] at h
      obtain ⟨k', v0⟩ := kv
      by_cases hk : k' = k
      · rw [if_pos hk] at h
        cases h
        rw [hk]
        exact List.mem_cons_self _ _
      · rw [if_neg hk] at h; cases h

theorem extract_json_embedded_object (pre j post : List Char) (v : Json)
    (hpre : ∀ a ∈ pre, a ≠ '{' ∧ a ≠ '}')
    (hpost : ∀ a ∈ post, a ≠ '{' ∧ a ≠ '}')
    (hhead : j.head? = some '{')
    (hlast : j.getLast? = some '}')
    (hv : json_loads j = some v) :
    extract_json (pre ++ j ++ post) = v := by
  obtain ⟨jt, hj⟩ : ∃ jt, j = '{' :: jt := by
    cases j with
    | nil => cases hhead
    | cons a t =>
      simp only [List.head?] at hhead
      injection hhead with ha
      exact ⟨t, by rw [ha]⟩
  have hne : j ≠ [] := by rw [hj]; simp
  have hgl : j.getLast hne = '}' := by
    rw [List.getLast?_eq_getLast j hne] at hlast
    injection hlast
  have hsplit : j.dropLast ++ ['}'] = j := by
    conv_rhs => rw [← List.dropLast_append_getLast hne]
    rw [hgl]
  have hlen2 : 2 ≤ j.length := by
    cases ht : jt with
    | nil =>
      exfalso
      rw [hj, ht] at hlast
      simp [List.getLast?] at hlast
    | cons b t => rw [hj, ht]; simp
  have hassoc : pre ++ j ++ post = pre ++ (j ++ post) := List.append_assoc pre j post
  have h2 : idxOfFirst '{' (j ++ post) = some 0 := by
    rw [hj]
    simp [idxOfFirst]
  have hfirst : idxOfFirst '{' (pre ++ (j ++ post)) = some pre.length := by
    rw [idxOfFirst_append_absent '{' pre (j ++ post) (fun a ha => (hpre a ha).1), h2]
    simp
  have h3 : idxOfLast '}' post = none :=
    idxOfLast_absent '}' post (fun a ha => (hpost a ha).2)
  have h4 : idxOfLast '}' j = some (j.length - 1) := by
    conv_lhs => rw [← hsplit]
    rw [idxOfLast_snoc_self, List.length_dropLast]
  have h5 : idxOfLast '}' (j ++ post) = some (j.length - 1) := by
    rw [idxOfLast_append, h3]
    exact h4
  have hlastidx : idxOfLast '}' (pre ++ (j ++ post)) = some (pre.length + (j.length - 1)) := by
    rw [idxOfLast_append, h5]
  have hcand : candidate (pre ++ (j ++ post)) = some j := by
    unfold candidate
    rw [hfirst, hlastidx]
    dsimp only
    have hlt : pre.length < pre.length + (j.length - 1) := by omega
    rw [if_pos hlt]
    have harg : pre.length + (j.length - 1) - pre.length + 1 = j.length := by omega
    rw [harg, List.drop_left, List.take_left]
  rw [hassoc, extract_json_of_candidate_some _ j hcand, hv]
  rfl

/-! ### Claims -/

/-- C1: the claim says that when the unification model response cannot be
parsed as JSON, get_unified_tags raises a fatal "context too big / unable
to parse" error.  The code does not: extract_json catches the
JSONDecodeError itself and returns {}, so the except clause that would
re-raise OutputParserException is dead code and get_unified_tags always
returns normally — here evaluated at an unparseable response, where it
returns ok {} instead of an error. -/
theorem get_unified_tags_swallows_parse_failure :
    (∀ (posts : List PyDict) (response : List Char),
      ∃ m, get_unified_tags posts response = Except.ok m) ∧
    get_unified_tags [[("tags", Json.arr [Json.str "A"])]]
      ("\x7bnot valid json\x7d".toList) = Except.ok (Json.obj []) := by
  constructor
  · intro posts response
    exact ⟨extract_json response, rfl⟩
  · rfl

/-- C2 counterexample: at response "hello" (no JSON anywhere), the metadata
extractor returns the empty mapping {}, which does not contain the key
line_count (nor language, nor tags) and is not the fixed fallback — the
claim "the mapping always contains the keys" fails. -/
theorem extract_metadata_missing_keys_cex :
    extract_metadata ("some post".toList) (some ("hello".toList)) = Json.obj [] ∧
    lookupLast (extract_metadata ("some post".toList) (some ("hello".toList))).objMembers
      "line_count" = none ∧
    extract_metadata ("some post".toList) (some ("hello".toList)) ≠ fallbackMetadata := by
  refine ⟨by decide, by decide, by decide⟩

/-- C2 amended: for every post text and reply, extract_metadata returns
exactly what extract_json extracts from the stripped reply (which is always
a mapping but may be {}, lacking the three keys); the fixed fallback
{line_count: 0, language: "Unknown", tags: []} is returned exactly when the
model invocation itself raised a caught parsing exception. -/
theorem extract_metadata_behavior :
    ∀ (post response : List Char),
      extract_metadata post (some response) = extract_json (pyStrip response) ∧
      extract_metadata post none = fallbackMetadata := by
  intro post response
  constructor
  · unfold extract_metadata
    dsimp only
    rw [if_pos (extract_json_isObj (pyStrip response))]
  · rfl

/-- C3 counterexample: the response contains the well-formed JSON object
substring from index 0 of length 8, yet extract_json returns {}: the
greedy regex candidate runs to the *last* brace of the string and fails to
parse, so surrounding prose containing braces defeats extraction. -/
theorem extract_json_greedy_cex :
    json_loads ("\x7b\"a\": 1\x7d".toList) = some (Json.obj [("a", Json.num "1")]) ∧
    (("\x7b\"a\": 1\x7d also \x7b\"b\": 2\x7d".toList).drop 0).take 8 = "\x7b\"a\": 1\x7d".toList ∧
    extract_json ("\x7b\"a\": 1\x7d also \x7b\"b\": 2\x7d".toList) = Json.obj [] ∧
    Json.obj [] ≠ Json.obj [("a", Json.num "1")] := by
  refine ⟨by decide, by decide, by decide, by decide⟩

/-- C3 amended: extract_json returns the parsed value of a well-formed
brace-delimited JSON object substring regardless of surrounding prose,
provided the surrounding prose contains no brace characters (the original
claim's allowance for braces in the prose is what the counterexample
refutes). -/
theorem extract_json_embedded_object_in_prose (pre j post : List Char) (v : Json)
    (hpre : ∀ a ∈ pre, a ≠ '{' ∧ a ≠ '}')
    (hpost : ∀ a ∈ post, a ≠ '{' ∧ a ≠ '}')
    (hhead : j.head? = some '{')
    (hlast : j.getLast? = some '}')
    (hv : json_loads j = some v) :
    extract_json (pre ++ j ++ post) = v :=
  extract_json_embedded_object pre j post v hpre hpost hhead hlast hv

/-- C3 amended, witness: a concrete reply with brace-free prose around a
JSON object, on which extract_json recovers exactly the parsed object. -/
theorem extract_json_embedded_object_in_prose_witness :
    extract_json ("Sure: ".toList ++ "\x7b\"a\": 1\x7d".toList ++ " bye.".toList)
      = Json.obj [("a", Json.num "1")] :=
  extract_json_embedded_object_in_prose ("Sure: ".toList) ("\x7b\"a\": 1\x7d".toList)
    (" bye.".toList) (Json.obj [("a", Json.num "1")])
    (by decide) (by decide) (by decide) (by decide) (by decide)

/-- C4 counterexample: a collection observing tag "A" together with the
unification reply "{}": get_unified_tags returns the empty mapping, whose
key set does not contain "A", so the returned mapping's keys are not a
superset of the observed tags. -/
theorem get_unified_tags_keys_not_superset_cex :
    observedTags [[("tags", Json.arr [Json.str "A"])]] = [Json.str "A"] ∧
    get_unified_tags [[("tags", Json.arr [Json.str "A"])]] ("\x7b\x7d".toList)
      = Except.ok (Json.obj []) ∧
    "A" ∉ jsonKeys (Json.obj []) := by
  refine ⟨by decide, by rfl, by decide⟩

/-- C4 amended: the mapping returned by get_unified_tags is exactly the
JSON object extracted from the unification response, independent of which
tags the collection observes — the code enforces no superset relation
between the mapping's keys and the observed tags. -/
theorem get_unified_tags_determined_by_response :
    ∀ (posts posts' : List PyDict) (response : List Char),
      get_unified_tags posts response = get_unified_tags posts' response ∧
      get_unified_tags posts response = Except.ok (extract_json response) := by
  intro posts posts' response
  exact ⟨rfl, rfl⟩

/-- C5 counterexample: under the tag mapping {"A": ""} (a legal mapping
value), the non-empty tag "A" is rewritten to the empty tag "", so
applying the mapping with identity fallback can produce an empty tag even
though every input tag is non-empty. -/
theorem rewriteTags_empty_tag_cex :
    Json.str "A" ≠ Json.str "" ∧
    rewriteTags [("A", Json.str "")] [Json.str "A"] = [Json.str ""] := by
  refine ⟨by decide, by decide⟩

/-- C5 amended: provided the mapping itself never maps a tag to the empty
string, rewriting tags through the mapping with identity fallback never
produces an empty tag from non-empty input tags. -/
theorem rewriteTags_no_empty_tags (unified : PyDict) (tags : List Json) (t' : Json)
    (hu : ∀ kv ∈ unified, kv.2 ≠ Json.str "")
    (ht : ∀ t ∈ tags, t ≠ Json.str "")
    (hmem : t' ∈ rewriteTags unified tags) : t' ≠ Json.str "" := by
  unfold rewriteTags at hmem
  rw [List.mem_dedup, List.mem_map] at hmem
  rcases hmem with ⟨t, htags, hmap⟩
  rw [← hmap]
  unfold mapTag
  cases t with
  | str s =>
    unfold dictGetD
    dsimp only
    cases hl : lookupLast unified s with
    | some w =>
      have hw := hu (s, w) (lookupLast_mem unified s w hl)
      simpa using hw
    | none =>
      simpa using ht _ htags
  | null => simp
  | bool b => simp
  | num n => simp
  | arr l => simp
  | obj o => simp

/-- C5 amended, witness: a concrete mapping with non-empty values applied
to non-empty tags yields a non-empty tag. -/
theorem rewriteTags_no_empty_tags_witness : Json.str "B" ≠ Json.str "" :=
  rewriteTags_no_empty_tags [("A", Json.str "B")] [Json.str "A"] (Json.str "B")
    (by decide) (by decide) (by decide)

/-- C6: the driver rewrites a record's tag list by sending each tag t to
mapping[t] when present and to t otherwise, then deduplicating via a set:
membership in the result is exactly membership in the image of the tag
list under that lookup-with-fallback; in particular the record with tags
["Job Search", "Hiring"] under the mapping
{"Job Search": "Job Search", "Hiring": "Job Search"} ends with tags
["Job Search"]. -/
theorem process_posts_tag_rewrite :
    (∀ (unified : PyDict) (tags : List Json) (t' : Json),
      t' ∈ rewriteTags unified tags ↔ ∃ t, t ∈ tags ∧ mapTag unified t = t') ∧
    lookupLast (applyUnification
        [("Job Search", Json.str "Job Search"), ("Hiring", Json.str "Job Search")]
        [("tags", Json.arr [Json.str "Job Search", Json.str "Hiring"])]) "tags"
      = some (Json.arr [Json.str "Job Search"]) := by
  constructor
  · intro unified tags t'
    unfold rewriteTags
    rw [List.mem_dedup, List.mem_map]
  · decide

/-- C6 witness: the membership characterization instantiated at a concrete
mapping and tag list. -/
theorem process_posts_tag_rewrite_witness :
    Json.str "X" ∈ rewriteTags [] [Json.str "X"] :=
  (process_posts_tag_rewrite.1 [] [Json.str "X"] (Json.str "X")).mpr
    ⟨Json.str "X", by decide, by decide⟩

/-- C7: for every response string containing no valid brace-delimited JSON
(no substring parses as a JSON object), extract_json returns the empty
mapping; being a total function of the response, it never raises — the
parse failure is absorbed. -/
theorem extract_json_no_json_returns_empty (s : List Char)
    (h : containsJsonObjStr s = false) : extract_json s = Json.obj [] := by
  cases hc : candidate s with
  | none => exact extract_json_of_candidate_none s hc
  | some cnd =>
    rw [extract_json_of_candidate_some s cnd hc]
    cases hl : json_loads cnd with
    | none => rfl
    | some v =>
      exfalso
      rcases candidate_is_substring s cnd hc with ⟨i, k, hi, hk, heq⟩
      rcases candidate_head s cnd hc with ⟨t, ht⟩
      rcases json_loads_obj_of_brace t v (ht ▸ hl) with ⟨kvs, hv⟩
      have hobj : isJsonObjStr cnd = true := by
        unfold isJsonObjStr
        rw [hl, hv]
      have hcontains : containsJsonObjStr s = true := by
        unfold containsJsonObjStr
        rw [List.any_eq_true]
        refine ⟨i, List.mem_range.mpr (by omega), ?_⟩
        rw [List.any_eq_true]
        exact ⟨k, List.mem_range.mpr (by omega), by rw [← heq]; exact hobj⟩
      rw [hcontains] at h
      cases h

/-- C7 witness: a concrete brace-bearing response with no JSON object in
it, on which extract_json returns the empty mapping. -/
theorem extract_json_no_json_returns_empty_witness :
    containsJsonObjStr ("ab\x7b".toList) = false ∧
    extract_json ("ab\x7b".toList) = Json.obj [] :=
  ⟨by decide, extract_json_no_json_returns_empty ("ab\x7b".toList) (by decide)⟩

/-- C8: in the merge of extracted metadata into a post record, a field
present in the metadata always supplies the merged value (later values win
field-name collisions), and a field absent from the metadata keeps the
record's original value. -/
theorem mergeDicts_later_wins :
    ∀ (post metadata : PyDict) (k : String),
      lookupLast (mergeDicts post metadata) k =
        match lookupLast metadata k with
        | some v => some v
        | none => lookupLast post k := by
  intro post metadata k
  exact lookupLast_append post metadata k

/-- C9 counterexample: an input record whose pre-existing tags field holds
the non-sequence value 5: with metadata extraction yielding {} the value
passes through unchanged, so the enriched record's tags field is not a
sequence. -/
theorem enrichPost_nonlist_tags_cex :
    lookupLast (enrichPost [("text", Json.str "x"), ("tags", Json.num "5")]
        (some ("hello".toList))) "tags" = some (Json.num "5") ∧
    (Json.num "5").isArr = false := by
  refine ⟨by rfl, by rfl⟩

/-- C9 amended: after enrichment every record has a tags key; its value is
the empty list when neither the original record nor the extracted metadata
carries one; but a pre-existing non-sequence tags value is passed through
unchanged when the metadata lacks tags, so the field is not always a
sequence. -/
theorem enrichPost_tags_key_always_present :
    ∀ (post : PyDict) (response : Option (List Char)),
      (∃ v, lookupLast (enrichPost post response) "tags" = some v) ∧
      (lookupLast post "tags" = none →
        lookupLast (extract_metadata (clean_text (textOf post)) response).objMembers
          "tags" = none →
        lookupLast (enrichPost post response) "tags" = some (Json.arr [])) := by
  intro post response
  constructor
  · simp only [enrichPost]
    exact ⟨_, lookupLast_setKey_self _ _ _⟩
  · intro h1 h2
    have htext : lookupLast (setKey post "text"
        (Json.str (String.mk (clean_text (textOf post))))) "tags" = none := by
      rw [lookupLast_setKey_ne post "text" "tags" _ (by decide)]
      exact h1
    simp only [enrichPost]
    rw [lookupLast_setKey_self]
    have hpwm : lookupLast
        (if (extract_metadata (clean_text (textOf post)) response).isObj = true
         then mergeDicts
           (setKey post "text" (Json.str (String.mk (clean_text (textOf post)))))
           (extract_metadata (clean_text (textOf post)) response).objMembers
         else setKey post "text" (Json.str (String.mk (clean_text (textOf post)))))
        "tags" = none := by
      by_cases hm : (extract_metadata (clean_text (textOf post)) response).isObj = true
      · rw [if_pos hm]
        unfold mergeDicts
        rw [lookupLast_append, h2]
        exact htext
      · rw [if_neg hm]
        exact htext
    rw [dictGetD, hpwm]
    rfl

/-- C9 amended, witness: a record with no tags field and a reply with no
JSON ends up with the empty tag list. -/
theorem enrichPost_tags_key_always_present_witness :
    lookupLast (enrichPost [("text", Json.str "hi")] (some ("no braces".toList)))
      "tags" = some (Json.arr []) :=
  (enrichPost_tags_key_always_present [("text", Json.str "hi")]
    (some ("no braces".toList))).2 (by decide) (by decide)

/-- C10: a regex candidate starts with a brace and a JSON document starting
with a brace can only parse as an object, so whenever the candidate parses,
the value is an object; hence extract_json always returns a mapping and the
non-mapping warning branch of extract_metadata is unreachable — on every
completed reply extract_metadata returns exactly extract_json's result. -/
theorem extract_json_candidate_always_object :
    ∀ (s p : List Char),
      (∀ (cnd : List Char) (v : Json),
        candidate s = some cnd → json_loads cnd = some v → v.isObj = true) ∧
      (extract_json s).isObj = true ∧
      extract_metadata p (some s) = extract_json (pyStrip s) := by
  intro s p
  refine ⟨?_, extract_json_isObj s, ?_⟩
  · intro cnd v hc hl
    rcases candidate_head s cnd hc with ⟨t, ht⟩
    rcases json_loads_obj_of_brace t v (ht ▸ hl) with ⟨kvs, hv⟩
    rw [hv]
    rfl
  · unfold extract_metadata
    dsimp only
    rw [if_pos (extract_json_isObj (pyStrip s))]

/-- C10 witness: the implication instantiated at the reply consisting of
exactly the empty JSON object. -/
theorem extract_json_candidate_always_object_witness :
    (Json.obj []).isObj = true :=
  (extract_json_candidate_always_object ("\x7b\x7d".toList) []).1 ("\x7b\x7d".toList)
    (Json.obj []) (by decide) (by decide)
